import Mathlib

/-!
Shallow embedding of the 360transitions geometric core:
`src/eval/src/include/Quaternion.hpp` (orientation algebra) and
`src/360popularity/src/AdaptionUnit.hpp` (viewport tile resolver).
C++ `double` arithmetic is embedded as exact real arithmetic; the
"within tolerance" phrases of the specification become exact equalities
over `ℝ`.
-/

noncomputable section

namespace IMT

/-- Modelled from the spec: the repository's `Vector.hpp` (the 3D Cartesian
vector value type) is not under `src/`; only its callers are.  Per the spec it
is a value type with three scalar components supporting addition, subtraction,
scalar scaling, dot product, cross product, Euclidean norm and normalization.
In `Quaternion.hpp` the operator `*` between two vectors is the dot product and
`^` is the cross product. -/
structure VectorCartesian where
  x : ℝ
  y : ℝ
  z : ℝ

namespace VectorCartesian

def add (a b : VectorCartesian) : VectorCartesian := ⟨a.x + b.x, a.y + b.y, a.z + b.z⟩

def sub (a b : VectorCartesian) : VectorCartesian := ⟨a.x - b.x, a.y - b.y, a.z - b.z⟩

def neg (a : VectorCartesian) : VectorCartesian := ⟨-a.x, -a.y, -a.z⟩

def scale (s : ℝ) (a : VectorCartesian) : VectorCartesian := ⟨s * a.x, s * a.y, s * a.z⟩

def divScalar (a : VectorCartesian) (s : ℝ) : VectorCartesian := ⟨a.x / s, a.y / s, a.z / s⟩

def DotProduct (a b : VectorCartesian) : ℝ := a.x * b.x + a.y * b.y + a.z * b.z

def cross (a b : VectorCartesian) : VectorCartesian :=
  ⟨a.y * b.z - a.z * b.y, a.z * b.x - a.x * b.z, a.x * b.y - a.y * b.x⟩

def Norm (a : VectorCartesian) : ℝ := Real.sqrt (a.DotProduct a)

instance : Add VectorCartesian := ⟨add⟩
instance : Sub VectorCartesian := ⟨sub⟩
instance : Neg VectorCartesian := ⟨neg⟩
instance : SMul ℝ VectorCartesian := ⟨scale⟩
instance : HDiv VectorCartesian ℝ VectorCartesian := ⟨divScalar⟩

end VectorCartesian

/-- Modelled from the spec: the repository's `Vector.hpp` also provides
`VectorSpherical`, a read-only spherical view of a Cartesian vector exposing a
wrap-around angle `theta ∈ (-π, π]` (the `atan2` of the `y` and `x`
components, so that `0.75 + theta/(2π)` used by the equirectangular mapping
stays positive) and an angle `phi ∈ [0, π]` measured from the `+z` axis
(`acos` of `z` over the norm), so that the equirectangular vertical coordinate
`phi/π` lies in `[0, 1]`. -/
def atan2 (y x : ℝ) : ℝ := Complex.arg ⟨x, y⟩

/-- Modelled from the spec: `GetTheta` of the spherical view of a Cartesian
vector. -/
def VectorCartesian.GetTheta (a : VectorCartesian) : ℝ := atan2 a.y a.x

/-- Modelled from the spec: `GetPhi` of the spherical view of a Cartesian
vector. -/
def VectorCartesian.GetPhi (a : VectorCartesian) : ℝ := Real.arccos (a.z / a.Norm)

/-- The real constant `PI_L` from `Quaternion.hpp` (the `long double` literal
approximating π), embedded as the exact real π. -/
def PI_L : ℝ := Real.pi

/-- The quaternion value type of `Quaternion.hpp`: scalar part `m_w`, vector
part `m_v`, and the cached `m_isNormalized` flag. -/
structure Quaternion where
  w : ℝ
  v : VectorCartesian
  isNormalized : Bool

namespace Quaternion

/-- Constructor `Quaternion(w, v)`; the flag starts `false`. -/
def ofWV (w : ℝ) (v : VectorCartesian) : Quaternion := ⟨w, v, false⟩

/-- Constructor `Quaternion(w, x, y, z)`. -/
def ofWXYZ (w x y z : ℝ) : Quaternion := ⟨w, ⟨x, y, z⟩, false⟩

/-- Constructor `explicit Quaternion(w)`. -/
def ofW (w : ℝ) : Quaternion := ⟨w, ⟨0, 0, 0⟩, false⟩

/-- Constructor `explicit Quaternion(v)` (pure quaternion). -/
def ofV (v : VectorCartesian) : Quaternion := ⟨0, v, false⟩

def DotProduct (a b : Quaternion) : ℝ := a.w * b.w + a.v.DotProduct b.v

def Norm (a : Quaternion) : ℝ := Real.sqrt (a.DotProduct a)

/-- Hamilton product, exactly as `operator*(const Quaternion&)`:
`(w₁w₂ − v₁·v₂, w₁v₂ + w₂v₁ + v₁×v₂)`, returned with a fresh (false) flag. -/
def mul (a b : Quaternion) : Quaternion :=
  ⟨a.w * b.w - a.v.DotProduct b.v, (a.w • b.v) + (b.w • a.v) + a.v.cross b.v, false⟩

def addq (a b : Quaternion) : Quaternion := ⟨a.w + b.w, a.v + b.v, false⟩

def subq (a b : Quaternion) : Quaternion := ⟨a.w - b.w, a.v - b.v, false⟩

def negq (a : Quaternion) : Quaternion := ⟨-a.w, -a.v, false⟩

/-- `operator*(SCALAR s)`. -/
def mulScalar (a : Quaternion) (s : ℝ) : Quaternion := ⟨a.w * s, s • a.v, false⟩

/-- `operator/(const SCALAR& s)`. -/
def divScalar (a : Quaternion) (s : ℝ) : Quaternion := ⟨a.w / s, a.v / s, false⟩

instance : Mul Quaternion := ⟨mul⟩
instance : Add Quaternion := ⟨addq⟩
instance : Sub Quaternion := ⟨subq⟩
instance : Neg Quaternion := ⟨negq⟩
instance : HMul Quaternion ℝ Quaternion := ⟨mulScalar⟩
instance : HDiv Quaternion ℝ Quaternion := ⟨divScalar⟩

@[simp] lemma mul_w (a b : Quaternion) : (a * b).w = a.w * b.w - a.v.DotProduct b.v := rfl
@[simp] lemma mul_v (a b : Quaternion) :
    (a * b).v = (a.w • b.v) + (b.w • a.v) + a.v.cross b.v := rfl
@[simp] lemma mul_flag (a b : Quaternion) : (a * b).isNormalized = false := rfl
@[simp] lemma add_w (a b : Quaternion) : (a + b).w = a.w + b.w := rfl
@[simp] lemma add_v (a b : Quaternion) : (a + b).v = a.v + b.v := rfl
@[simp] lemma add_flag (a b : Quaternion) : (a + b).isNormalized = false := rfl
@[simp] lemma sub_w (a b : Quaternion) : (a - b).w = a.w - b.w := rfl
@[simp] lemma sub_v (a b : Quaternion) : (a - b).v = a.v - b.v := rfl
@[simp] lemma sub_flag (a b : Quaternion) : (a - b).isNormalized = false := rfl
@[simp] lemma neg_w (a : Quaternion) : (-a).w = -a.w := rfl
@[simp] lemma neg_v (a : Quaternion) : (-a).v = -a.v := rfl
@[simp] lemma neg_flag (a : Quaternion) : (-a).isNormalized = false := rfl
@[simp] lemma mulScalar_w (a : Quaternion) (s : ℝ) : (a * s).w = a.w * s := rfl
@[simp] lemma mulScalar_v (a : Quaternion) (s : ℝ) : (a * s).v = s • a.v := rfl
@[simp] lemma mulScalar_flag (a : Quaternion) (s : ℝ) : (a * s).isNormalized = false := rfl
@[simp] lemma divScalar_w (a : Quaternion) (s : ℝ) : (a / s).w = a.w / s := rfl
@[simp] lemma divScalar_v (a : Quaternion) (s : ℝ) : (a / s).v = a.v / s := rfl
@[simp] lemma divScalar_flag (a : Quaternion) (s : ℝ) : (a / s).isNormalized = false := rfl

/-- The value equality tested by `operator==`: component-wise on `w` and `v`,
ignoring the cached flag. -/
def eqv (a b : Quaternion) : Prop := a.w = b.w ∧ a.v = b.v

/-- `Normalize()`: when the flag is unset, divide the value by its norm and set
the flag; otherwise leave the quaternion unchanged.  (The C++ method mutates in
place; the embedding returns the post-state.) -/
def Normalize (a : Quaternion) : Quaternion :=
  if a.isNormalized then a else ⟨a.w / a.Norm, a.v / a.Norm, true⟩

/-- `Normalized()`: non-mutating variant; the division constructs a fresh
(false-flagged) value. -/
def Normalized (a : Quaternion) : Quaternion :=
  if a.isNormalized then a else a / a.Norm

def IsPur (a : Quaternion) : Prop := a.w = 0

instance (a : Quaternion) : Decidable a.IsPur := by unfold IsPur; infer_instance

def Conj (a : Quaternion) : Quaternion := ⟨a.w, -a.v, false⟩

/-- `Inv()`: conjugate on the flagged fast path, conjugate divided by
`pow(Norm(), 2)` otherwise. -/
def Inv (a : Quaternion) : Quaternion :=
  if a.isNormalized then a.Conj else a.Conj / a.Norm ^ 2

/-- `Rotation(v)`: `(q · v · q̄).v` on the flagged fast path, the same divided
by the squared norm otherwise. -/
def Rotation (a : Quaternion) (p : VectorCartesian) : VectorCartesian :=
  if a.isNormalized then (a * ofV p * a.Conj).v
  else ((a * ofV p * a.Conj) / a.Norm ^ 2).v

/-- `FromEuler(yaw, pitch, roll)`: half-angle products, then `Normalize`. -/
def FromEuler (yaw pitch roll : ℝ) : Quaternion :=
  let t0 := Real.cos (yaw * 0.5)
  let t1 := Real.sin (yaw * 0.5)
  let t2 := Real.cos (roll * 0.5)
  let t3 := Real.sin (roll * 0.5)
  let t4 := Real.cos (pitch * 0.5)
  let t5 := Real.sin (pitch * 0.5)
  Normalize (ofWV (t0 * t2 * t4 + t1 * t3 * t5)
    ⟨t0 * t3 * t4 - t1 * t2 * t5,
     t0 * t2 * t5 + t1 * t3 * t4,
     t1 * t2 * t4 - t0 * t3 * t5⟩)

/-- C `copysign(mag, sgn)` on reals: the magnitude of the first argument with
the sign of the second. -/
def copysign (mag sgn : ℝ) : ℝ := if sgn < 0 then -|mag| else |mag|

/-- `ToEuler()`: the atan2/asin decomposition with the sign-preserving clamp of
the pitch at the gimbal-lock boundary; returns `{roll, pitch, yaw}`. -/
def ToEuler (q : Quaternion) : VectorCartesian :=
  let sinr := 2 * (q.w * q.v.x + q.v.y * q.v.z)
  let cosr := 1 - 2 * (q.v.x * q.v.x + q.v.y * q.v.y)
  let roll := atan2 sinr cosr
  let sinp := 2 * (q.w * q.v.y - q.v.z * q.v.x)
  let pitch := if 1 ≤ |sinp| then copysign (PI_L / 2) sinp else Real.arcsin sinp
  let siny := 2 * (q.w * q.v.z + q.v.x * q.v.y)
  let cosy := 1 - 2 * (q.v.y * q.v.y + q.v.z * q.v.z)
  let yaw := atan2 siny cosy
  ⟨roll, pitch, yaw⟩

/-- `Exp(q)` exactly as coded: the `exp` factor multiplies only the scalar
part, and a zero vector part is passed through. -/
def Exp (q : Quaternion) : Quaternion :=
  ofWV (Real.cos q.v.Norm * Real.exp q.w)
    (if q.v.Norm ≠ 0 then Real.sin q.v.Norm • (q.v / q.v.Norm) else q.v)

/-- `Log(q)` exactly as coded: a zero vector part (or zero norm) is passed
through. -/
def Log (q : Quaternion) : Quaternion :=
  ofWV (Real.log q.Norm)
    (if q.v.Norm ≠ 0 ∧ q.Norm ≠ 0 then Real.arccos (q.w / q.Norm) • (q.v / q.v.Norm)
     else q.v)

/-- `pow(q, k) = Exp(Log(q) * k)`. -/
def qpow (q : Quaternion) (k : ℝ) : Quaternion := Exp (Log q * k)

/-- `SLERP(q1, q2, k)`: negates `q2` first when the dot product is negative. -/
def SLERP (q1 q2 : Quaternion) (k : ℝ) : Quaternion :=
  if q1.DotProduct q2 < 0 then q1 * qpow (q1.Inv * (-q2)) k
  else q1 * qpow (q1.Inv * q2) k

/-- `AverageAngularVelocity(q1, q2, deltaT)`: fix the double-cover sign, reduce
each non-pure input (normalizing it first if it is not flagged) to the pure
quaternion of the rotated reference axis `(1,0,0)`, then difference. -/
def AverageAngularVelocity (q1 q2 : Quaternion) (deltaT : ℝ) : VectorCartesian :=
  let q2a := if q1.DotProduct q2 < 0 then -q2 else q2
  let q1b := if ¬ q1.IsPur then ofV ((q1.Normalize).Rotation ⟨1, 0, 0⟩) else q1
  let q2b := if ¬ q2a.IsPur then ofV ((q2a.Normalize).Rotation ⟨1, 0, 0⟩) else q2a
  let deltaQ := q2b - q1b
  let W := (deltaQ * (2.0 / deltaT)) * q1b.Inv
  W.v

end Quaternion

end IMT

open IMT

/-- The global `float PI` of `AdaptionUnit.hpp` (a literal approximating π),
embedded as the exact real π. -/
def PI : ℝ := Real.pi

def monocular_horizontal : ℝ := 92.0

def monocular_vertical : ℝ := 92.0

def maxHDist : ℝ := 2 * Real.tan (monocular_horizontal * PI / 180.0 / 2.0)

def maxVDist : ℝ := 2 * Real.tan (monocular_vertical * PI / 180.0 / 2.0)

def SAMPLERES : ℕ := 8

def SAMPLEPOINTS : ℕ := (SAMPLERES + 1) * (SAMPLERES + 1)

/-- `AdaptionUnit::NormalizedCoordinate`. -/
structure NormalizedCoordinate where
  x : ℝ
  y : ℝ

/-- C truncation toward zero (the rounding used by `fmod`). -/
def ctrunc (x : ℝ) : ℤ := if 0 ≤ x then ⌊x⌋ else ⌈x⌉

/-- C `fmod(x, y) = x - y * trunc(x / y)`. -/
def cfmod (x y : ℝ) : ℝ := x - y * ctrunc (x / y)

/-- The pre-rotation viewing ray of
`AdaptionUnit::fromViewportCoordToEquirectCoord` (lines 84-88): offsets from
the viewport center scaled by `2 * maxHDist` / `2 * maxVDist`, assembled as
`(1, u, v)` and divided by the norm. -/
def preRotationRay (c : NormalizedCoordinate) : VectorCartesian :=
  let u := (c.x - 0.5) * (2 * maxHDist)
  let v := (0.5 - c.y) * (2 * maxVDist)
  let coordBefRot : VectorCartesian := ⟨1, u, v⟩
  coordBefRot / coordBefRot.Norm

/-- `AdaptionUnit::fromViewportCoordToEquirectCoord`: rotate the pre-rotation
ray by the head rotation, read the spherical angles, and wrap into the
equirectangular frame. -/
def fromViewportCoordToEquirectCoord (headRotation : Quaternion)
    (viewportCoord : NormalizedCoordinate) : NormalizedCoordinate :=
  let pixel3dPolar := headRotation.Rotation (preRotationRay viewportCoord)
  ⟨1 - cfmod (0.75 + pixel3dPolar.GetTheta / (2 * PI)) 1,
   pixel3dPolar.GetPhi / PI⟩

/-- The resolver state `normalizedCoordTileMapping`: a sorted map from
normalized X boundaries to sorted maps from normalized Y boundaries to tile
indices, here an association list in key order. -/
abbrev TileMapping : Type := List (ℝ × List (ℝ × ℤ))

/-- `std::map::lower_bound`: the first entry (in key order) whose key is not
less than the query. -/
def lowerBound {α : Type} (l : List (ℝ × α)) (q : ℝ) : Option (ℝ × α) :=
  l.find? (fun e => decide (q ≤ e.1))

/-- `AdaptionUnit::mapCoordToTile`: chained `lower_bound` searches.  The C++
dereferences the iterator unconditionally; a failed search (past-the-end
iterator, undefined behavior) is embedded as `none`. -/
def mapCoordToTile (m : TileMapping) (coord : NormalizedCoordinate) : Option ℤ :=
  match lowerBound m coord.x with
  | none => none
  | some e => (lowerBound e.2 coord.y).map (fun f => f.2)

/-- The precomputed sample grid: `samplePoints[i*(SAMPLERES+1)+j] =
{i*(1.0/SAMPLERES), j*(1.0/SAMPLERES)}` for `i, j` in `0..SAMPLERES`. -/
def samplePoints : List NormalizedCoordinate :=
  (List.range (SAMPLERES + 1)).flatMap (fun i =>
    (List.range (SAMPLERES + 1)).map (fun j =>
      ⟨(i : ℝ) * (1.0 / (SAMPLERES : ℝ)), (j : ℝ) * (1.0 / (SAMPLERES : ℝ))⟩))

/-- The per-point loop body of `computeTileVisibility`, folded over a list of
sample points; a failed tile lookup (undefined behavior in the C++) makes the
whole computation `none`. -/
def assignTiles (m : TileMapping) (q : Quaternion) :
    List NormalizedCoordinate → Option (List ℤ)
  | [] => some []
  | p :: ps =>
    (mapCoordToTile m (fromViewportCoordToEquirectCoord q p)).bind (fun t =>
      (assignTiles m q ps).map (fun ts => t :: ts))

/-- `AdaptionUnit::computeTileVisibility`: the returned
`std::map<int,int>` histogram is represented by the multiset of per-sample
tile assignments (the histogram's count for a tile is the multiset
multiplicity). -/
def computeTileVisibility (m : TileMapping) (headRotation : Quaternion) :
    Option (Multiset ℤ) :=
  (assignTiles m headRotation samplePoints).map (fun l => (l : Multiset ℤ))

/-- The claim C1 reading of the pre-rotation viewing ray, with the offsets from
center scaled by `2·tan(46°)` (stated for comparison with `preRotationRay`,
which embeds the source). -/
def claimedPreRotationRay (c : NormalizedCoordinate) : VectorCartesian :=
  let u := (c.x - 0.5) * (2 * Real.tan (46 * Real.pi / 180))
  let v := (0.5 - c.y) * (2 * Real.tan (46 * Real.pi / 180))
  let coordBefRot : VectorCartesian := ⟨1, u, v⟩
  coordBefRot / coordBefRot.Norm

/-!  Lemmas and claim theorems. -/

namespace IMT.VectorCartesian

@[simp] lemma add_x (a b : VectorCartesian) : (a + b).x = a.x + b.x := rfl
@[simp] lemma add_y (a b : VectorCartesian) : (a + b).y = a.y + b.y := rfl
@[simp] lemma add_z (a b : VectorCartesian) : (a + b).z = a.z + b.z := rfl
@[simp] lemma sub_x (a b : VectorCartesian) : (a - b).x = a.x - b.x := rfl
@[simp] lemma sub_y (a b : VectorCartesian) : (a - b).y = a.y - b.y := rfl
@[simp] lemma sub_z (a b : VectorCartesian) : (a - b).z = a.z - b.z := rfl
@[simp] lemma neg_x (a : VectorCartesian) : (-a).x = -a.x := rfl
@[simp] lemma neg_y (a : VectorCartesian) : (-a).y = -a.y := rfl
@[simp] lemma neg_z (a : VectorCartesian) : (-a).z = -a.z := rfl
@[simp] lemma smul_x (s : ℝ) (a : VectorCartesian) : (s • a).x = s * a.x := rfl
@[simp] lemma smul_y (s : ℝ) (a : VectorCartesian) : (s • a).y = s * a.y := rfl
@[simp] lemma smul_z (s : ℝ) (a : VectorCartesian) : (s • a).z = s * a.z := rfl
@[simp] lemma div_x (a : VectorCartesian) (s : ℝ) : (a / s).x = a.x / s := rfl
@[simp] lemma div_y (a : VectorCartesian) (s : ℝ) : (a / s).y = a.y / s := rfl
@[simp] lemma div_z (a : VectorCartesian) (s : ℝ) : (a / s).z = a.z / s := rfl

@[ext] lemma ext {a b : VectorCartesian} (hx : a.x = b.x) (hy : a.y = b.y)
    (hz : a.z = b.z) : a = b := by
  cases a; cases b; simp_all

lemma dot_self_nonneg (a : VectorCartesian) : 0 ≤ a.DotProduct a := by
  unfold DotProduct
  nlinarith [sq_nonneg a.x, sq_nonneg a.y, sq_nonneg a.z]

lemma norm_nonneg (a : VectorCartesian) : 0 ≤ a.Norm := Real.sqrt_nonneg _

lemma norm_sq (a : VectorCartesian) : a.Norm ^ 2 = a.DotProduct a :=
  Real.sq_sqrt a.dot_self_nonneg

lemma dot_self_of_norm_ne_zero {a : VectorCartesian} (h : a.Norm ≠ 0) :
    a.DotProduct a ≠ 0 := by
  intro h0
  exact h (by rw [Norm, h0, Real.sqrt_zero])

/-- Normalizing a vector of non-zero norm yields a unit-norm vector. -/
lemma norm_div_norm (a : VectorCartesian) (h : a.Norm ≠ 0) :
    (a / a.Norm).Norm = 1 := by
  have hd : a.DotProduct a ≠ 0 := dot_self_of_norm_ne_zero h
  have hdiv : (a / a.Norm).DotProduct (a / a.Norm) = 1 := by
    show (a.x / a.Norm) * (a.x / a.Norm) + (a.y / a.Norm) * (a.y / a.Norm) +
      (a.z / a.Norm) * (a.z / a.Norm) = 1
    have hsq : a.Norm * a.Norm = a.DotProduct a := by
      have := a.norm_sq
      nlinarith [this]
    field_simp
    rw [hsq]
    unfold DotProduct
    ring
  rw [Norm, hdiv, Real.sqrt_one]

end IMT.VectorCartesian

namespace IMT.Quaternion

lemma qdot_self_nonneg (a : Quaternion) : 0 ≤ a.DotProduct a := by
  unfold DotProduct VectorCartesian.DotProduct
  nlinarith [sq_nonneg a.w, sq_nonneg a.v.x, sq_nonneg a.v.y, sq_nonneg a.v.z]

lemma norm_eq_one_iff (a : Quaternion) : a.Norm = 1 ↔ a.DotProduct a = 1 := by
  rw [Norm, Real.sqrt_eq_one]

lemma qdot_self_of_norm_ne_zero {a : Quaternion} (h : a.Norm ≠ 0) :
    a.DotProduct a ≠ 0 := by
  intro h0
  exact h (by rw [Norm, h0, Real.sqrt_zero])

/-- The value written back by `Normalize` on the unflagged path has norm 1. -/
lemma qnorm_div_norm (a : Quaternion) (h : a.Norm ≠ 0) (b : Bool) :
    (⟨a.w / a.Norm, a.v / a.Norm, b⟩ : Quaternion).Norm = 1 := by
  have hd : a.DotProduct a ≠ 0 := qdot_self_of_norm_ne_zero h
  have hsq : a.Norm * a.Norm = a.DotProduct a := by
    have := Real.sq_sqrt a.qdot_self_nonneg
    rw [Norm]
    nlinarith [this]
  rw [norm_eq_one_iff]
  show a.w / a.Norm * (a.w / a.Norm) +
    ((a.v.x / a.Norm) * (a.v.x / a.Norm) + (a.v.y / a.Norm) * (a.v.y / a.Norm) +
      (a.v.z / a.Norm) * (a.v.z / a.Norm)) = 1
  field_simp
  rw [hsq]
  unfold DotProduct VectorCartesian.DotProduct
  ring

@[simp] lemma vdiv_one (a : VectorCartesian) : a / (1 : ℝ) = a := by
  ext <;> simp

/-- The per-sample zero difference: `((r - r) * s) * p` has a zero vector
part, whatever `r`, `s` and `p` are. -/
lemma sub_self_mul_mul_v (r p : Quaternion) (s : ℝ) :
    (((r - r) * s) * p).v = (⟨0, 0, 0⟩ : VectorCartesian) := by
  ext <;> simp [VectorCartesian.cross, VectorCartesian.DotProduct]

lemma norm_unit_example : (Quaternion.ofWXYZ 1 0 0 0).Norm = 1 := by
  show Real.sqrt ((1 : ℝ) * 1 + (0 * 0 + 0 * 0 + 0 * 0)) = 1
  rw [show ((1 : ℝ) * 1 + (0 * 0 + 0 * 0 + 0 * 0)) = 1 by norm_num, Real.sqrt_one]

lemma norm_two_example : (Quaternion.ofWXYZ 2 0 0 0).Norm = 2 := by
  show Real.sqrt ((2 : ℝ) * 2 + (0 * 0 + 0 * 0 + 0 * 0)) = 2
  rw [show ((2 : ℝ) * 2 + (0 * 0 + 0 * 0 + 0 * 0)) = (2 : ℝ) ^ 2 by norm_num]
  exact Real.sqrt_sq (by norm_num)

end IMT.Quaternion

open IMT

/-- C4: for every quaternion with norm 1, `Inv(q)` equals `Conj(q) = (w, -v)`
component-wise regardless of the cached is-normalized flag; and for every
quaternion that is not flagged unit and has non-zero norm, `Inv(q)` equals
`Conj(q)` divided by the squared norm. -/
theorem C4_inv_conj (q : Quaternion) :
    (q.Norm = 1 → (q.Inv).eqv q.Conj) ∧
    (q.isNormalized = false → q.Norm ≠ 0 →
      q.Inv = q.Conj / q.Norm ^ 2) := by
  constructor
  · intro h1
    unfold Quaternion.Inv
    cases hf : q.isNormalized with
    | true => exact ⟨rfl, rfl⟩
    | false =>
      simp only [Bool.false_eq_true, if_false, h1, one_pow]
      exact ⟨div_one _, Quaternion.vdiv_one _⟩
  · intro hf _
    unfold Quaternion.Inv
    rw [hf]
    simp

/-- Witness for C4 at the concrete quaternions `(1,0,0,0)` (norm 1, flag
false) and `(2,0,0,0)` (norm 2, flag false). -/
theorem C4_inv_conj_witness :
    ((Quaternion.ofWXYZ 1 0 0 0).Norm = 1 ∧
      ((Quaternion.ofWXYZ 1 0 0 0).Inv).eqv (Quaternion.ofWXYZ 1 0 0 0).Conj) ∧
    ((Quaternion.ofWXYZ 2 0 0 0).isNormalized = false ∧
      (Quaternion.ofWXYZ 2 0 0 0).Norm ≠ 0 ∧
      (Quaternion.ofWXYZ 2 0 0 0).Inv =
        (Quaternion.ofWXYZ 2 0 0 0).Conj / (Quaternion.ofWXYZ 2 0 0 0).Norm ^ 2) := by
  have h2 : (Quaternion.ofWXYZ 2 0 0 0).Norm ≠ 0 := by
    rw [Quaternion.norm_two_example]; norm_num
  exact ⟨⟨Quaternion.norm_unit_example, (C4_inv_conj _).1 Quaternion.norm_unit_example⟩,
    rfl, h2, (C4_inv_conj _).2 rfl h2⟩

/-- C8: `ToEuler` never fails at the gimbal-lock boundary: whenever the pitch
sine value `sinp = 2(w·y − z·x)` is out of range (`|sinp| ≥ 1`), the returned
pitch is exactly `±π/2` with the sign of `sinp`, and a triple is still
returned. -/
theorem C8_toEuler_clamp (q : Quaternion) :
    (1 ≤ 2 * (q.w * q.v.y - q.v.z * q.v.x) → (q.ToEuler).y = Real.pi / 2) ∧
    (2 * (q.w * q.v.y - q.v.z * q.v.x) ≤ -1 → (q.ToEuler).y = -(Real.pi / 2)) := by
  have hpi : 0 ≤ Real.pi / 2 := by positivity
  constructor
  · intro h
    show (if 1 ≤ |2 * (q.w * q.v.y - q.v.z * q.v.x)| then
        Quaternion.copysign (PI_L / 2) (2 * (q.w * q.v.y - q.v.z * q.v.x))
      else Real.arcsin (2 * (q.w * q.v.y - q.v.z * q.v.x))) = Real.pi / 2
    rw [if_pos (by rw [abs_of_nonneg (by linarith)]; exact h)]
    unfold Quaternion.copysign PI_L
    rw [if_neg (by linarith), abs_of_nonneg hpi]
  · intro h
    show (if 1 ≤ |2 * (q.w * q.v.y - q.v.z * q.v.x)| then
        Quaternion.copysign (PI_L / 2) (2 * (q.w * q.v.y - q.v.z * q.v.x))
      else Real.arcsin (2 * (q.w * q.v.y - q.v.z * q.v.x))) = -(Real.pi / 2)
    rw [if_pos (by rw [abs_of_nonpos (by linarith)]; linarith)]
    unfold Quaternion.copysign PI_L
    rw [if_pos (by linarith), abs_of_nonneg hpi]

/-- Witness for C8 at `q = (1, (0,1,0))`, whose `sinp` is `2 ≥ 1`. -/
theorem C8_toEuler_clamp_witness :
    (1 : ℝ) ≤ 2 * ((Quaternion.ofWXYZ 1 0 1 0).w * (Quaternion.ofWXYZ 1 0 1 0).v.y -
      (Quaternion.ofWXYZ 1 0 1 0).v.z * (Quaternion.ofWXYZ 1 0 1 0).v.x) ∧
    ((Quaternion.ofWXYZ 1 0 1 0).ToEuler).y = Real.pi / 2 := by
  have h : (1 : ℝ) ≤ 2 * ((1 : ℝ) * 1 - 0 * 0) := by norm_num
  exact ⟨h, (C8_toEuler_clamp _).1 h⟩

/-- C9: for a unit quaternion `q` and `deltaT > 0`,
`AverageAngularVelocity(q, q, deltaT)` is the zero vector, whether `q` is pure
(the reduction is skipped) or not (both arguments are reduced identically by
rotating the reference axis). -/
theorem C9_aav_self_zero (q : Quaternion) (deltaT : ℝ) (h : q.Norm = 1)
    (ht : 0 < deltaT) :
    Quaternion.AverageAngularVelocity q q deltaT = ⟨0, 0, 0⟩ := by
  have hdot : ¬ (q.DotProduct q < 0) := not_lt.mpr q.qdot_self_nonneg
  simp only [Quaternion.AverageAngularVelocity]
  rw [if_neg hdot]
  by_cases hp : q.IsPur
  · simp only [if_neg (not_not_intro hp)]
    exact Quaternion.sub_self_mul_mul_v q _ _
  · simp only [if_pos hp]
    exact Quaternion.sub_self_mul_mul_v _ _ _

namespace IMT.Quaternion

/-- Lagrange-style identity behind `FromEuler`: the four half-angle products
have unit sum of squares. -/
lemma euler_dot_aux (t0 t1 t2 t3 t4 t5 : ℝ) (h01 : t1 ^ 2 + t0 ^ 2 = 1)
    (h23 : t3 ^ 2 + t2 ^ 2 = 1) (h45 : t5 ^ 2 + t4 ^ 2 = 1) :
    (t0 * t2 * t4 + t1 * t3 * t5) * (t0 * t2 * t4 + t1 * t3 * t5) +
      ((t0 * t3 * t4 - t1 * t2 * t5) * (t0 * t3 * t4 - t1 * t2 * t5) +
        (t0 * t2 * t5 + t1 * t3 * t4) * (t0 * t2 * t5 + t1 * t3 * t4) +
        (t1 * t2 * t4 - t0 * t3 * t5) * (t1 * t2 * t4 - t0 * t3 * t5)) = 1 := by
  linear_combination ((t3 ^ 2 + t2 ^ 2) * (t5 ^ 2 + t4 ^ 2)) * h01 +
    (t5 ^ 2 + t4 ^ 2) * h23 + h45

/-- `FromEuler` returns a flagged quaternion of norm exactly 1. -/
lemma FromEuler_spec (yaw pitch roll : ℝ) :
    (Quaternion.FromEuler yaw pitch roll).isNormalized = true ∧
    (Quaternion.FromEuler yaw pitch roll).Norm = 1 := by
  have hdot :
      (Quaternion.ofWV
        (Real.cos (yaw * 0.5) * Real.cos (roll * 0.5) * Real.cos (pitch * 0.5) +
          Real.sin (yaw * 0.5) * Real.sin (roll * 0.5) * Real.sin (pitch * 0.5))
        ⟨Real.cos (yaw * 0.5) * Real.sin (roll * 0.5) * Real.cos (pitch * 0.5) -
            Real.sin (yaw * 0.5) * Real.cos (roll * 0.5) * Real.sin (pitch * 0.5),
          Real.cos (yaw * 0.5) * Real.cos (roll * 0.5) * Real.sin (pitch * 0.5) +
            Real.sin (yaw * 0.5) * Real.sin (roll * 0.5) * Real.cos (pitch * 0.5),
          Real.sin (yaw * 0.5) * Real.cos (roll * 0.5) * Real.cos (pitch * 0.5) -
            Real.cos (yaw * 0.5) * Real.sin (roll * 0.5) * Real.sin (pitch * 0.5)⟩).DotProduct
        (Quaternion.ofWV
        (Real.cos (yaw * 0.5) * Real.cos (roll * 0.5) * Real.cos (pitch * 0.5) +
          Real.sin (yaw * 0.5) * Real.sin (roll * 0.5) * Real.sin (pitch * 0.5))
        ⟨Real.cos (yaw * 0.5) * Real.sin (roll * 0.5) * Real.cos (pitch * 0.5) -
            Real.sin (yaw * 0.5) * Real.cos (roll * 0.5) * Real.sin (pitch * 0.5),
          Real.cos (yaw * 0.5) * Real.cos (roll * 0.5) * Real.sin (pitch * 0.5) +
            Real.sin (yaw * 0.5) * Real.sin (roll * 0.5) * Real.cos (pitch * 0.5),
          Real.sin (yaw * 0.5) * Real.cos (roll * 0.5) * Real.cos (pitch * 0.5) -
            Real.cos (yaw * 0.5) * Real.sin (roll * 0.5) * Real.sin (pitch * 0.5)⟩) = 1 :=
    euler_dot_aux (Real.cos (yaw * 0.5)) (Real.sin (yaw * 0.5)) (Real.cos (roll * 0.5))
      (Real.sin (roll * 0.5)) (Real.cos (pitch * 0.5)) (Real.sin (pitch * 0.5))
      (Real.sin_sq_add_cos_sq (yaw * 0.5)) (Real.sin_sq_add_cos_sq (roll * 0.5))
      (Real.sin_sq_add_cos_sq (pitch * 0.5))
  have hN : (Quaternion.ofWV _ _).Norm = 1 := (norm_eq_one_iff _).mpr hdot
  refine ⟨rfl, ?_⟩
  show (Quaternion.Normalize _).Norm = 1
  unfold Quaternion.Normalize
  rw [if_neg (by exact fun hc => absurd hc Bool.false_ne_true)]
  exact qnorm_div_norm _ (by rw [hN]; norm_num) true

end IMT.Quaternion

/-- C7: the cached-flag invariant — if a quaternion's is-normalized flag is
set, its norm is 1 — is preserved by everything the public interface produces:
all four constructors start with the flag unset; the arithmetic operators,
negation, `Conj` and `Inv` return flag-false values; and the only two
operations that set the flag, `Normalize` on a non-zero quaternion and
`FromEuler`, leave the value at norm exactly 1. -/
theorem C7_flag_invariant :
    (∀ (w : ℝ) (v : VectorCartesian), (Quaternion.ofWV w v).isNormalized = false) ∧
    (∀ w x y z : ℝ, (Quaternion.ofWXYZ w x y z).isNormalized = false) ∧
    (∀ w : ℝ, (Quaternion.ofW w).isNormalized = false) ∧
    (∀ v : VectorCartesian, (Quaternion.ofV v).isNormalized = false) ∧
    (∀ a b : Quaternion, (a + b).isNormalized = false ∧ (a - b).isNormalized = false ∧
      (a * b).isNormalized = false) ∧
    (∀ a : Quaternion, (-a).isNormalized = false ∧ a.Conj.isNormalized = false ∧
      a.Inv.isNormalized = false) ∧
    (∀ (a : Quaternion) (s : ℝ), (a * s).isNormalized = false ∧
      (a / s).isNormalized = false) ∧
    (∀ q : Quaternion, (q.isNormalized = true → q.Norm = 1) → q.Norm ≠ 0 →
      (q.Normalize).Norm = 1) ∧
    (∀ yaw pitch roll : ℝ, (Quaternion.FromEuler yaw pitch roll).isNormalized = true ∧
      (Quaternion.FromEuler yaw pitch roll).Norm = 1) := by
  refine ⟨fun _ _ => rfl, fun _ _ _ _ => rfl, fun _ => rfl, fun _ => rfl,
    fun _ _ => ⟨rfl, rfl, rfl⟩, fun a => ⟨rfl, rfl, ?_⟩, fun _ _ => ⟨rfl, rfl⟩,
    ?_, Quaternion.FromEuler_spec⟩
  · unfold Quaternion.Inv
    cases a.isNormalized <;> rfl
  · intro q hinv hne
    unfold Quaternion.Normalize
    cases hf : q.isNormalized with
    | true => simpa using hinv hf
    | false =>
      rw [if_neg (by exact fun hc => absurd hc Bool.false_ne_true)]
      exact Quaternion.qnorm_div_norm q hne true

/-- Witness for C7's `Normalize` clause at the non-zero, unflagged quaternion
`(2,0,0,0)`. -/
theorem C7_flag_invariant_witness :
    ((Quaternion.ofWXYZ 2 0 0 0).isNormalized = true → (Quaternion.ofWXYZ 2 0 0 0).Norm = 1) ∧
    (Quaternion.ofWXYZ 2 0 0 0).Norm ≠ 0 ∧
    ((Quaternion.ofWXYZ 2 0 0 0).Normalize).Norm = 1 := by
  have hfi : (Quaternion.ofWXYZ 2 0 0 0).isNormalized = true →
      (Quaternion.ofWXYZ 2 0 0 0).Norm = 1 :=
    fun hc => absurd hc Bool.false_ne_true
  have hne : (Quaternion.ofWXYZ 2 0 0 0).Norm ≠ 0 := by
    rw [Quaternion.norm_two_example]; norm_num
  exact ⟨hfi, hne, C7_flag_invariant.2.2.2.2.2.2.2.1 _ hfi hne⟩

/-- C5: for every quaternion of norm 1 (on either flag path) and every vector,
`Rotation` preserves the Euclidean norm. -/
theorem C5_rotation_norm (q : Quaternion) (p : VectorCartesian) (h : q.Norm = 1) :
    (q.Rotation p).Norm = p.Norm := by
  have hd : q.DotProduct q = 1 := q.norm_eq_one_iff.mp h
  have key : ((q * Quaternion.ofV p * q.Conj).v).DotProduct
      ((q * Quaternion.ofV p * q.Conj).v) =
      (q.DotProduct q) ^ 2 * (p.DotProduct p) := by
    simp only [Quaternion.mul_v, Quaternion.mul_w, Quaternion.ofV, Quaternion.Conj,
      Quaternion.DotProduct, VectorCartesian.DotProduct, VectorCartesian.cross,
      VectorCartesian.add_x, VectorCartesian.add_y, VectorCartesian.add_z,
      VectorCartesian.smul_x, VectorCartesian.smul_y, VectorCartesian.smul_z,
      VectorCartesian.neg_x, VectorCartesian.neg_y, VectorCartesian.neg_z]
    ring
  have main : ((q * Quaternion.ofV p * q.Conj).v).Norm = p.Norm := by
    unfold VectorCartesian.Norm
    rw [key, hd]
    norm_num
  unfold Quaternion.Rotation
  cases hf : q.isNormalized with
  | true => simpa using main
  | false =>
    rw [if_neg (by exact fun hc => absurd hc Bool.false_ne_true)]
    rw [Quaternion.divScalar_v, h]
    simpa using main

/-- Witness for C5 at `q = (1,0,0,0)` and `v = (3,4,0)`. -/
theorem C5_rotation_norm_witness :
    (Quaternion.ofWXYZ 1 0 0 0).Norm = 1 ∧
    ((Quaternion.ofWXYZ 1 0 0 0).Rotation ⟨3, 4, 0⟩).Norm =
      (⟨3, 4, 0⟩ : VectorCartesian).Norm :=
  ⟨Quaternion.norm_unit_example, C5_rotation_norm _ _ Quaternion.norm_unit_example⟩

lemma preRotationRay_eval (c : NormalizedCoordinate) :
    preRotationRay c =
      (⟨1, (c.x - 0.5) * (2 * maxHDist), (0.5 - c.y) * (2 * maxVDist)⟩ :
        VectorCartesian) /
      (⟨1, (c.x - 0.5) * (2 * maxHDist), (0.5 - c.y) * (2 * maxVDist)⟩ :
        VectorCartesian).Norm := rfl

lemma claimedPreRotationRay_eval (c : NormalizedCoordinate) :
    claimedPreRotationRay c =
      (⟨1, (c.x - 0.5) * (2 * Real.tan (46 * Real.pi / 180)),
          (0.5 - c.y) * (2 * Real.tan (46 * Real.pi / 180))⟩ : VectorCartesian) /
      (⟨1, (c.x - 0.5) * (2 * Real.tan (46 * Real.pi / 180)),
          (0.5 - c.y) * (2 * Real.tan (46 * Real.pi / 180))⟩ : VectorCartesian).Norm := rfl

lemma maxHDist_eq : maxHDist = 2 * Real.tan (46 * Real.pi / 180) := by
  rw [maxHDist, show monocular_horizontal * PI / 180.0 / 2.0 = 46 * Real.pi / 180 by
    unfold monocular_horizontal PI; ring]

lemma maxVDist_eq : maxVDist = 2 * Real.tan (46 * Real.pi / 180) := by
  rw [maxVDist, show monocular_vertical * PI / 180.0 / 2.0 = 46 * Real.pi / 180 by
    unfold monocular_vertical PI; ring]

lemma tan46_pos : 0 < Real.tan (46 * Real.pi / 180) := by
  have hπ := Real.pi_pos
  exact Real.tan_pos_of_pos_of_lt_pi_div_two (by positivity) (by linarith)

/-- A vector whose first component is 1 has non-zero norm. -/
lemma norm_head_one_ne_zero (u v : ℝ) : (⟨1, u, v⟩ : VectorCartesian).Norm ≠ 0 := by
  have hpos : 0 < (⟨1, u, v⟩ : VectorCartesian).DotProduct ⟨1, u, v⟩ := by
    show 0 < 1 * 1 + u * u + v * v
    nlinarith [sq_nonneg u, sq_nonneg v]
  exact ne_of_gt (Real.sqrt_pos.mpr hpos)

/-- Counterexample to C1 as stated: at the sample point `(1, 0.5)` the code's
pre-rotation ray differs from the ray built with the claimed scale factor
`2·tan(46°)` (the code scales by `2·maxHDist = 4·tan(46°)`). -/
theorem C1_counterexample :
    preRotationRay ⟨1, 0.5⟩ ≠ claimedPreRotationRay ⟨1, 0.5⟩ := by
  intro heq
  have ht := tan46_pos
  set t := Real.tan (46 * Real.pi / 180) with ht_def
  rw [preRotationRay_eval, claimedPreRotationRay_eval] at heq
  have e1 : ((⟨1, 0.5⟩ : NormalizedCoordinate).x - 0.5) * (2 * maxHDist) = 2 * t := by
    show ((1 : ℝ) - 0.5) * (2 * maxHDist) = 2 * t
    rw [maxHDist_eq, ← ht_def]; ring
  have e2 : (0.5 - (⟨1, 0.5⟩ : NormalizedCoordinate).y) * (2 * maxVDist) = 0 := by
    show ((0.5 : ℝ) - 0.5) * (2 * maxVDist) = 0
    norm_num
  have e3 : ((⟨1, 0.5⟩ : NormalizedCoordinate).x - 0.5) * (2 * t) = t := by
    show ((1 : ℝ) - 0.5) * (2 * t) = t
    ring_nf
  have e4 : (0.5 - (⟨1, 0.5⟩ : NormalizedCoordinate).y) * (2 * t) = 0 := by
    show ((0.5 : ℝ) - 0.5) * (2 * t) = 0
    norm_num
  rw [e1, e2, e3, e4] at heq
  have hx := congrArg VectorCartesian.x heq
  simp only [VectorCartesian.div_x] at hx
  have hN1 : 0 < (⟨1, 2 * t, 0⟩ : VectorCartesian).Norm :=
    lt_of_le_of_ne (VectorCartesian.norm_nonneg _) (Ne.symm (norm_head_one_ne_zero _ _))
  have hN2 : 0 < (⟨1, t, 0⟩ : VectorCartesian).Norm :=
    lt_of_le_of_ne (VectorCartesian.norm_nonneg _) (Ne.symm (norm_head_one_ne_zero _ _))
  have hNN : (⟨1, 2 * t, 0⟩ : VectorCartesian).Norm = (⟨1, t, 0⟩ : VectorCartesian).Norm := by
    field_simp at hx
    linarith
  have hdd : (⟨1, 2 * t, 0⟩ : VectorCartesian).DotProduct ⟨1, 2 * t, 0⟩ =
      (⟨1, t, 0⟩ : VectorCartesian).DotProduct ⟨1, t, 0⟩ := by
    rw [← VectorCartesian.norm_sq, ← VectorCartesian.norm_sq, hNN]
  unfold VectorCartesian.DotProduct at hdd
  simp only at hdd
  nlinarith [hdd, ht, mul_pos ht ht]

/-- C1 amended: the pre-rotation viewing ray is the unit normalization of
`(1, u, v)` with `u = (x − 0.5)·4·tan(46°)` and `v = (0.5 − y)·4·tan(46°)`
(the code scales the offsets by `2·maxHDist`, i.e. by `4·tan(fov/2)`, not by
`2·tan(fov/2)`); the resulting ray has unit norm. -/
theorem C1_ray_amended (c : NormalizedCoordinate) :
    preRotationRay c =
      (⟨1, (c.x - 0.5) * (4 * Real.tan (46 * Real.pi / 180)),
          (0.5 - c.y) * (4 * Real.tan (46 * Real.pi / 180))⟩ : VectorCartesian) /
      (⟨1, (c.x - 0.5) * (4 * Real.tan (46 * Real.pi / 180)),
          (0.5 - c.y) * (4 * Real.tan (46 * Real.pi / 180))⟩ : VectorCartesian).Norm ∧
    (preRotationRay c).Norm = 1 := by
  have e1 : (c.x - 0.5) * (2 * maxHDist) =
      (c.x - 0.5) * (4 * Real.tan (46 * Real.pi / 180)) := by
    rw [maxHDist_eq]; ring
  have e2 : (0.5 - c.y) * (2 * maxVDist) =
      (0.5 - c.y) * (4 * Real.tan (46 * Real.pi / 180)) := by
    rw [maxVDist_eq]; ring
  constructor
  · rw [preRotationRay_eval, e1, e2]
  · rw [preRotationRay_eval]
    exact VectorCartesian.norm_div_norm _ (norm_head_one_ne_zero _ _)

/-- Witness for C9 at `q = (1,0,0,0)` and `deltaT = 1`. -/
theorem C9_aav_self_zero_witness :
    (Quaternion.ofWXYZ 1 0 0 0).Norm = 1 ∧ (0 : ℝ) < 1 ∧
    Quaternion.AverageAngularVelocity (Quaternion.ofWXYZ 1 0 0 0)
      (Quaternion.ofWXYZ 1 0 0 0) 1 = ⟨0, 0, 0⟩ :=
  ⟨Quaternion.norm_unit_example, one_pos,
    C9_aav_self_zero _ _ Quaternion.norm_unit_example one_pos⟩

namespace IMT.VectorCartesian

lemma eq_zero_of_norm_zero {a : VectorCartesian} (h : a.Norm = 0) :
    a = (⟨0, 0, 0⟩ : VectorCartesian) := by
  have hd : a.DotProduct a = 0 := by
    rw [← norm_sq, h]
    norm_num
  unfold DotProduct at hd
  have hx : a.x * a.x = 0 :=
    le_antisymm (by nlinarith [mul_self_nonneg a.y, mul_self_nonneg a.z])
      (mul_self_nonneg a.x)
  have hy : a.y * a.y = 0 :=
    le_antisymm (by nlinarith [mul_self_nonneg a.x, mul_self_nonneg a.z])
      (mul_self_nonneg a.y)
  have hz : a.z * a.z = 0 :=
    le_antisymm (by nlinarith [mul_self_nonneg a.x, mul_self_nonneg a.y])
      (mul_self_nonneg a.z)
  ext
  · exact mul_self_eq_zero.mp hx
  · exact mul_self_eq_zero.mp hy
  · exact mul_self_eq_zero.mp hz

lemma norm_zero_vec : ((⟨0, 0, 0⟩ : VectorCartesian)).Norm = 0 := by
  show Real.sqrt (0 * 0 + 0 * 0 + 0 * 0) = 0
  rw [show (0 * 0 + 0 * 0 + 0 * 0 : ℝ) = 0 by norm_num, Real.sqrt_zero]

lemma norm_smul (s : ℝ) (a : VectorCartesian) : (s • a).Norm = |s| * a.Norm := by
  unfold Norm
  rw [show (s • a).DotProduct (s • a) = s ^ 2 * a.DotProduct a by
    unfold DotProduct; simp only [smul_x, smul_y, smul_z]; ring]
  rw [Real.sqrt_mul (sq_nonneg s), Real.sqrt_sq_eq_abs]

lemma smul_div_cancel {s : ℝ} (hs : s ≠ 0) (a : VectorCartesian) :
    (s • a) / s = a := by
  ext <;> simp [mul_div_cancel_left₀ _ hs]

lemma smul_norm_div_norm (a : VectorCartesian) (h : a.Norm ≠ 0) :
    a.Norm • (a / a.Norm) = a := by
  ext <;> simp only [smul_x, smul_y, smul_z, div_x, div_y, div_z] <;>
    rw [mul_comm, div_mul_cancel₀ _ h]

end IMT.VectorCartesian

namespace IMT.Quaternion

@[ext] lemma qext {a b : Quaternion} (hw : a.w = b.w) (hv : a.v = b.v)
    (hf : a.isNormalized = b.isNormalized) : a = b := by
  cases a; cases b; simp_all

lemma qmul_assoc (a b c : Quaternion) : a * b * c = a * (b * c) := by
  ext <;>
    simp only [mul_w, mul_v, VectorCartesian.DotProduct, VectorCartesian.cross,
      VectorCartesian.add_x, VectorCartesian.add_y, VectorCartesian.add_z,
      VectorCartesian.smul_x, VectorCartesian.smul_y, VectorCartesian.smul_z,
      mul_flag] <;>
    ring

lemma mul_conj_self (a : Quaternion) :
    a * a.Conj = (⟨a.DotProduct a, ⟨0, 0, 0⟩, false⟩ : Quaternion) := by
  ext <;>
    simp only [mul_w, mul_v, Conj, DotProduct, VectorCartesian.DotProduct,
      VectorCartesian.cross, VectorCartesian.add_x, VectorCartesian.add_y,
      VectorCartesian.add_z, VectorCartesian.smul_x, VectorCartesian.smul_y,
      VectorCartesian.smul_z, VectorCartesian.neg_x, VectorCartesian.neg_y,
      VectorCartesian.neg_z, mul_flag] <;>
    ring

lemma one_mul_val (b : Quaternion) :
    (⟨1, ⟨0, 0, 0⟩, false⟩ : Quaternion) * b = (⟨b.w, b.v, false⟩ : Quaternion) := by
  ext <;>
    simp [VectorCartesian.DotProduct, VectorCartesian.cross]

lemma mul_one_val (a : Quaternion) :
    a * (⟨1, ⟨0, 0, 0⟩, false⟩ : Quaternion) = (⟨a.w, a.v, false⟩ : Quaternion) := by
  ext <;>
    simp [VectorCartesian.DotProduct, VectorCartesian.cross]

lemma mul_negone_val (a : Quaternion) :
    a * (⟨-1, ⟨0, 0, 0⟩, false⟩ : Quaternion) = (⟨-a.w, -a.v, false⟩ : Quaternion) := by
  ext <;>
    simp [VectorCartesian.DotProduct, VectorCartesian.cross]

lemma dot_conj_self (a : Quaternion) : a.Conj.DotProduct a.Conj = a.DotProduct a := by
  simp only [Conj, DotProduct, VectorCartesian.DotProduct, VectorCartesian.neg_x,
    VectorCartesian.neg_y, VectorCartesian.neg_z]
  ring

lemma dot_neg_self (a : Quaternion) : (-a).DotProduct (-a) = a.DotProduct a := by
  simp only [neg_w, neg_v, DotProduct, VectorCartesian.DotProduct,
    VectorCartesian.neg_x, VectorCartesian.neg_y, VectorCartesian.neg_z]
  ring

/-- Euler four-square identity: the quaternion dot of a product. -/
lemma dot_mul (a b : Quaternion) :
    (a * b).DotProduct (a * b) = a.DotProduct a * b.DotProduct b := by
  simp only [mul_w, mul_v, DotProduct, VectorCartesian.DotProduct,
    VectorCartesian.cross, VectorCartesian.add_x, VectorCartesian.add_y,
    VectorCartesian.add_z, VectorCartesian.smul_x, VectorCartesian.smul_y,
    VectorCartesian.smul_z]
  ring

lemma inv_of_norm_one {a : Quaternion} (h : a.Norm = 1) : a.Inv = a.Conj := by
  unfold Inv
  cases hf : a.isNormalized with
  | true => simp
  | false =>
    rw [if_neg (by exact fun hc => absurd hc Bool.false_ne_true), h]
    ext <;> simp [Conj]

lemma qpow_zero (p : Quaternion) :
    qpow p 0 = (⟨1, ⟨0, 0, 0⟩, false⟩ : Quaternion) := by
  have h0 : Log p * (0 : ℝ) = (⟨0, ⟨0, 0, 0⟩, false⟩ : Quaternion) := by
    ext <;> simp
  unfold qpow
  rw [h0]
  unfold Exp
  rw [ofWV]
  refine qext ?_ ?_ rfl
  · show Real.cos ((⟨0, 0, 0⟩ : VectorCartesian)).Norm * Real.exp 0 = 1
    rw [VectorCartesian.norm_zero_vec, Real.cos_zero, Real.exp_zero, one_mul]
  · show (if ((⟨0, 0, 0⟩ : VectorCartesian)).Norm ≠ 0 then
        Real.sin ((⟨0, 0, 0⟩ : VectorCartesian)).Norm •
          ((⟨0, 0, 0⟩ : VectorCartesian) / ((⟨0, 0, 0⟩ : VectorCartesian)).Norm)
      else (⟨0, 0, 0⟩ : VectorCartesian)) = (⟨0, 0, 0⟩ : VectorCartesian)
    rw [if_neg (by rw [VectorCartesian.norm_zero_vec]; exact fun hc => hc rfl)]

lemma qmul_one_scalar (p : Quaternion) :
    p * (1 : ℝ) = (⟨p.w, p.v, false⟩ : Quaternion) := by
  ext <;> simp

/-- The coded `Exp (Log p)` recovers `p`'s components for a unit-norm `p`
other than `-1`. -/
lemma qpow_one_of_norm_one {p : Quaternion} (h : p.Norm = 1)
    (hnot : ¬ (p.w = -1 ∧ p.v = (⟨0, 0, 0⟩ : VectorCartesian))) :
    qpow p 1 = (⟨p.w, p.v, false⟩ : Quaternion) := by
  have hd : p.DotProduct p = 1 := p.norm_eq_one_iff.mp h
  have hdv : p.w * p.w + p.v.DotProduct p.v = 1 := hd
  have hvnonneg := p.v.dot_self_nonneg
  have hw_le : p.w ≤ 1 := by nlinarith
  have hw_ge : -1 ≤ p.w := by nlinarith
  unfold qpow
  rw [qmul_one_scalar]
  by_cases hv : p.v.Norm = 0
  · have hvz : p.v = (⟨0, 0, 0⟩ : VectorCartesian) :=
      VectorCartesian.eq_zero_of_norm_zero hv
    have hvd : p.v.DotProduct p.v = 0 := by
      rw [hvz]
      show (0 : ℝ) * 0 + 0 * 0 + 0 * 0 = 0
      norm_num
    have hw2 : p.w * p.w = 1 := by nlinarith
    have hw1 : p.w = 1 := by
      rcases mul_self_eq_one_iff.mp hw2 with h1 | h1
      · exact h1
      · exact absurd ⟨h1, hvz⟩ hnot
    have hlog : Log p = (⟨0, ⟨0, 0, 0⟩, false⟩ : Quaternion) := by
      unfold Log
      rw [ofWV]
      refine qext ?_ ?_ rfl
      · show Real.log p.Norm = 0
        rw [h, Real.log_one]
      · show (if p.v.Norm ≠ 0 ∧ p.Norm ≠ 0 then
            Real.arccos (p.w / p.Norm) • (p.v / p.v.Norm) else p.v) =
            (⟨0, 0, 0⟩ : VectorCartesian)
        rw [if_neg (fun hc => hc.1 hv), hvz]
    show Exp (⟨(Log p).w, (Log p).v, false⟩ : Quaternion) = _
    rw [show (⟨(Log p).w, (Log p).v, false⟩ : Quaternion) = Log p by
      refine qext rfl rfl ?_
      rw [hlog]]
    rw [hlog]
    unfold Exp
    rw [ofWV]
    refine qext ?_ ?_ rfl
    · show Real.cos ((⟨0, 0, 0⟩ : VectorCartesian)).Norm * Real.exp 0 = p.w
      rw [VectorCartesian.norm_zero_vec, Real.cos_zero, Real.exp_zero, one_mul, hw1]
    · show (if ((⟨0, 0, 0⟩ : VectorCartesian)).Norm ≠ 0 then
          Real.sin ((⟨0, 0, 0⟩ : VectorCartesian)).Norm •
            ((⟨0, 0, 0⟩ : VectorCartesian) / ((⟨0, 0, 0⟩ : VectorCartesian)).Norm)
        else (⟨0, 0, 0⟩ : VectorCartesian)) = p.v
      rw [if_neg (by rw [VectorCartesian.norm_zero_vec]; exact fun hc => hc rfl), hvz]
  · -- non-zero vector part
    have hvpos : 0 < p.v.Norm :=
      lt_of_le_of_ne (VectorCartesian.norm_nonneg _) (Ne.symm hv)
    have hlogv : (Log p).v = Real.arccos p.w • (p.v / p.v.Norm) := by
      show (if p.v.Norm ≠ 0 ∧ p.Norm ≠ 0 then
          Real.arccos (p.w / p.Norm) • (p.v / p.v.Norm) else p.v) =
          Real.arccos p.w • (p.v / p.v.Norm)
      rw [if_pos ⟨hv, by rw [h]; exact one_ne_zero⟩, h, div_one]
    have hlogw : (Log p).w = 0 := by
      show Real.log p.Norm = 0
      rw [h, Real.log_one]
    have hunit : (p.v / p.v.Norm).Norm = 1 :=
      VectorCartesian.norm_div_norm p.v hv
    have hlv : (Log p).v.Norm = Real.arccos p.w := by
      rw [hlogv, VectorCartesian.norm_smul, hunit, mul_one,
        abs_of_nonneg (Real.arccos_nonneg _)]
    have hα : Real.arccos p.w ≠ 0 := by
      intro h0
      have hw1 : 1 ≤ p.w := Real.arccos_eq_zero.mp h0
      have hweq : p.w = 1 := le_antisymm hw_le hw1
      have hvd : p.v.DotProduct p.v = 0 := by nlinarith
      exact hv (by rw [VectorCartesian.Norm, hvd, Real.sqrt_zero])
    show Exp (⟨(Log p).w, (Log p).v, false⟩ : Quaternion) = _
    unfold Exp
    rw [ofWV]
    refine qext ?_ ?_ rfl
    · show Real.cos ((Log p).v.Norm) * Real.exp ((Log p).w) = p.w
      rw [hlv, hlogw, Real.exp_zero, mul_one, Real.cos_arccos hw_ge hw_le]
    · show (if ((Log p).v).Norm ≠ 0 then
          Real.sin ((Log p).v.Norm) • ((Log p).v / (Log p).v.Norm)
        else (Log p).v) = p.v
      rw [if_pos (by rw [hlv]; exact hα)]
      rw [hlv, hlogv]
      rw [show (Real.arccos p.w • (p.v / p.v.Norm)) / Real.arccos p.w =
          p.v / p.v.Norm from VectorCartesian.smul_div_cancel hα _]
      rw [Real.sin_arccos]
      rw [show Real.sqrt (1 - p.w ^ 2) = p.v.Norm by
        rw [show 1 - p.w ^ 2 = p.v.DotProduct p.v by nlinarith]
        rfl]
      exact VectorCartesian.smul_norm_div_norm p.v hv

lemma slerp_zero_val (q1 q2 : Quaternion) :
    SLERP q1 q2 0 = (⟨q1.w, q1.v, false⟩ : Quaternion) := by
  unfold SLERP
  by_cases hd : q1.DotProduct q2 < 0
  · rw [if_pos hd, qpow_zero, mul_one_val]
  · rw [if_neg hd, qpow_zero, mul_one_val]

lemma slerp_one_pos (q1 q2 : Quaternion) (h1 : q1.Norm = 1) (h2 : q2.Norm = 1)
    (hd : ¬ q1.DotProduct q2 < 0) :
    SLERP q1 q2 1 = (⟨q2.w, q2.v, false⟩ : Quaternion) := by
  have hd1 : q1.DotProduct q1 = 1 := q1.norm_eq_one_iff.mp h1
  have hd2 : q2.DotProduct q2 = 1 := q2.norm_eq_one_iff.mp h2
  unfold SLERP
  rw [if_neg hd, inv_of_norm_one h1]
  set p := q1.Conj * q2 with hp
  have hpflag : p.isNormalized = false := rfl
  have hpd : p.DotProduct p = 1 := by
    rw [hp, dot_mul, dot_conj_self, hd1, hd2]
    norm_num
  have hpn : p.Norm = 1 := p.norm_eq_one_iff.mpr hpd
  have hkey : q1 * p = (⟨q2.w, q2.v, false⟩ : Quaternion) := by
    rw [hp, ← qmul_assoc, mul_conj_self, hd1, one_mul_val]
  have hnot : ¬ (p.w = -1 ∧ p.v = (⟨0, 0, 0⟩ : VectorCartesian)) := by
    intro hcon
    obtain ⟨hw, hv⟩ := hcon
    have hpval : p = (⟨-1, ⟨0, 0, 0⟩, false⟩ : Quaternion) := qext hw hv hpflag
    have h3 : (⟨q2.w, q2.v, false⟩ : Quaternion) =
        (⟨-q1.w, -q1.v, false⟩ : Quaternion) := by
      rw [← hkey, hpval, mul_negone_val]
    have hw2 : q2.w = -q1.w := congrArg Quaternion.w h3
    have hv2 : q2.v = -q1.v := congrArg Quaternion.v h3
    apply hd
    have hdd : q1.DotProduct q2 = -(q1.DotProduct q1) := by
      unfold DotProduct VectorCartesian.DotProduct
      rw [hw2, hv2]
      simp only [VectorCartesian.neg_x, VectorCartesian.neg_y, VectorCartesian.neg_z]
      ring
    rw [hdd, hd1]
    norm_num
  rw [qpow_one_of_norm_one hpn hnot,
    show (⟨p.w, p.v, false⟩ : Quaternion) = p from qext rfl rfl hpflag.symm]
  exact hkey

lemma slerp_one_neg (q1 q2 : Quaternion) (h1 : q1.Norm = 1) (h2 : q2.Norm = 1)
    (hd : q1.DotProduct q2 < 0) :
    SLERP q1 q2 1 = (⟨-q2.w, -q2.v, false⟩ : Quaternion) := by
  have hd1 : q1.DotProduct q1 = 1 := q1.norm_eq_one_iff.mp h1
  have hd2 : q2.DotProduct q2 = 1 := q2.norm_eq_one_iff.mp h2
  unfold SLERP
  rw [if_pos hd, inv_of_norm_one h1]
  set p := q1.Conj * -q2 with hp
  have hpflag : p.isNormalized = false := rfl
  have hpd : p.DotProduct p = 1 := by
    rw [hp, dot_mul, dot_conj_self, dot_neg_self, hd1, hd2]
    norm_num
  have hpn : p.Norm = 1 := p.norm_eq_one_iff.mpr hpd
  have hkey : q1 * p = (⟨-q2.w, -q2.v, false⟩ : Quaternion) := by
    rw [hp, ← qmul_assoc, mul_conj_self, hd1, one_mul_val]
    rfl
  have hnot : ¬ (p.w = -1 ∧ p.v = (⟨0, 0, 0⟩ : VectorCartesian)) := by
    intro hcon
    obtain ⟨hw, hv⟩ := hcon
    have hpval : p = (⟨-1, ⟨0, 0, 0⟩, false⟩ : Quaternion) := qext hw hv hpflag
    have h3 : (⟨-q2.w, -q2.v, false⟩ : Quaternion) =
        (⟨-q1.w, -q1.v, false⟩ : Quaternion) := by
      rw [← hkey, hpval, mul_negone_val]
    have hw2 : q2.w = q1.w := neg_inj.mp (congrArg Quaternion.w h3)
    have hv3 : -q2.v = -q1.v := congrArg Quaternion.v h3
    have hv2 : q2.v = q1.v := by
      ext
      · exact neg_inj.mp (congrArg VectorCartesian.x hv3)
      · exact neg_inj.mp (congrArg VectorCartesian.y hv3)
      · exact neg_inj.mp (congrArg VectorCartesian.z hv3)
    have hdd : q1.DotProduct q2 = q1.DotProduct q1 := by
      unfold DotProduct VectorCartesian.DotProduct
      rw [hw2, hv2]
    rw [hdd, hd1] at hd
    exact (by norm_num : ¬ (1 : ℝ) < 0) hd
  rw [qpow_one_of_norm_one hpn hnot,
    show (⟨p.w, p.v, false⟩ : Quaternion) = p from qext rfl rfl hpflag.symm]
  exact hkey

lemma sin_eq_half (x : ℝ) :
    Real.sin x = 2 * Real.sin (x * 0.5) * Real.cos (x * 0.5) := by
  have h := Real.sin_two_mul (x * 0.5)
  rw [show 2 * (x * 0.5) = x by ring] at h
  exact h

lemma cos_eq_half (x : ℝ) :
    Real.cos x = Real.cos (x * 0.5) ^ 2 - Real.sin (x * 0.5) ^ 2 := by
  have h := Real.cos_two_mul (x * 0.5)
  rw [show 2 * (x * 0.5) = x by ring] at h
  have hp := Real.sin_sq_add_cos_sq (x * 0.5)
  linarith

/-- The roll numerator of `ToEuler ∘ FromEuler` as a half-angle polynomial. -/
lemma euler_I1 (t0 t1 t2 t3 t4 t5 : ℝ) (h01 : t1 ^ 2 + t0 ^ 2 = 1) :
    2 * ((t0 * t2 * t4 + t1 * t3 * t5) * (t0 * t3 * t4 - t1 * t2 * t5) +
      (t0 * t2 * t5 + t1 * t3 * t4) * (t1 * t2 * t4 - t0 * t3 * t5)) =
    (t4 ^ 2 - t5 ^ 2) * (2 * t3 * t2) := by
  linear_combination (2 * t2 * t3 * (t4 ^ 2 - t5 ^ 2)) * h01

/-- The roll denominator of `ToEuler ∘ FromEuler` as a half-angle polynomial. -/
lemma euler_I2 (t0 t1 t2 t3 t4 t5 : ℝ) (h01 : t1 ^ 2 + t0 ^ 2 = 1)
    (h23 : t3 ^ 2 + t2 ^ 2 = 1) (h45 : t5 ^ 2 + t4 ^ 2 = 1) :
    1 - 2 * ((t0 * t3 * t4 - t1 * t2 * t5) * (t0 * t3 * t4 - t1 * t2 * t5) +
      (t0 * t2 * t5 + t1 * t3 * t4) * (t0 * t2 * t5 + t1 * t3 * t4)) =
    (t4 ^ 2 - t5 ^ 2) * (t2 ^ 2 - t3 ^ 2) := by
  linear_combination (-2 * (t3 ^ 2 * t4 ^ 2 + t2 ^ 2 * t5 ^ 2)) * h01 -
    (t5 ^ 2 + t4 ^ 2) * h23 - h45

/-- The pitch sine of `ToEuler ∘ FromEuler` as a half-angle polynomial. -/
lemma euler_I3 (t0 t1 t2 t3 t4 t5 : ℝ) (h01 : t1 ^ 2 + t0 ^ 2 = 1)
    (h23 : t3 ^ 2 + t2 ^ 2 = 1) :
    2 * ((t0 * t2 * t4 + t1 * t3 * t5) * (t0 * t2 * t5 + t1 * t3 * t4) -
      (t1 * t2 * t4 - t0 * t3 * t5) * (t0 * t3 * t4 - t1 * t2 * t5)) =
    2 * t5 * t4 := by
  linear_combination (2 * t4 * t5 * (t3 ^ 2 + t2 ^ 2)) * h01 + (2 * t4 * t5) * h23

/-- The yaw numerator of `ToEuler ∘ FromEuler` as a half-angle polynomial. -/
lemma euler_I4 (t0 t1 t2 t3 t4 t5 : ℝ) (h23 : t3 ^ 2 + t2 ^ 2 = 1) :
    2 * ((t0 * t2 * t4 + t1 * t3 * t5) * (t1 * t2 * t4 - t0 * t3 * t5) +
      (t0 * t3 * t4 - t1 * t2 * t5) * (t0 * t2 * t5 + t1 * t3 * t4)) =
    (t4 ^ 2 - t5 ^ 2) * (2 * t1 * t0) := by
  linear_combination (2 * t0 * t1 * (t4 ^ 2 - t5 ^ 2)) * h23

/-- The yaw denominator of `ToEuler ∘ FromEuler` as a half-angle polynomial. -/
lemma euler_I5 (t0 t1 t2 t3 t4 t5 : ℝ) (h01 : t1 ^ 2 + t0 ^ 2 = 1)
    (h23 : t3 ^ 2 + t2 ^ 2 = 1) (h45 : t5 ^ 2 + t4 ^ 2 = 1) :
    1 - 2 * ((t0 * t2 * t5 + t1 * t3 * t4) * (t0 * t2 * t5 + t1 * t3 * t4) +
      (t1 * t2 * t4 - t0 * t3 * t5) * (t1 * t2 * t4 - t0 * t3 * t5)) =
    (t4 ^ 2 - t5 ^ 2) * (t0 ^ 2 - t1 ^ 2) := by
  linear_combination (-(t5 ^ 2 + t4 ^ 2)) * h01 -
    2 * (t0 ^ 2 * t5 ^ 2 + t1 ^ 2 * t4 ^ 2) * h23 - h45

lemma normalize_of_norm_one {a : Quaternion} (h : a.Norm = 1)
    (hf : a.isNormalized = false) :
    a.Normalize = (⟨a.w, a.v, true⟩ : Quaternion) := by
  unfold Normalize
  rw [if_neg (by rw [hf]; exact Bool.false_ne_true), h]
  refine qext ?_ ?_ rfl
  · exact div_one _
  · exact vdiv_one _

/-- The computed components of `FromEuler` (the normalization divides by an
exact norm of 1). -/
lemma fromEuler_val (yaw pitch roll : ℝ) :
    Quaternion.FromEuler yaw pitch roll =
      (⟨Real.cos (yaw * 0.5) * Real.cos (roll * 0.5) * Real.cos (pitch * 0.5) +
          Real.sin (yaw * 0.5) * Real.sin (roll * 0.5) * Real.sin (pitch * 0.5),
        ⟨Real.cos (yaw * 0.5) * Real.sin (roll * 0.5) * Real.cos (pitch * 0.5) -
            Real.sin (yaw * 0.5) * Real.cos (roll * 0.5) * Real.sin (pitch * 0.5),
          Real.cos (yaw * 0.5) * Real.cos (roll * 0.5) * Real.sin (pitch * 0.5) +
            Real.sin (yaw * 0.5) * Real.sin (roll * 0.5) * Real.cos (pitch * 0.5),
          Real.sin (yaw * 0.5) * Real.cos (roll * 0.5) * Real.cos (pitch * 0.5) -
            Real.cos (yaw * 0.5) * Real.sin (roll * 0.5) * Real.sin (pitch * 0.5)⟩,
        true⟩ : Quaternion) := by
  have hdot :
      (Quaternion.ofWV
        (Real.cos (yaw * 0.5) * Real.cos (roll * 0.5) * Real.cos (pitch * 0.5) +
          Real.sin (yaw * 0.5) * Real.sin (roll * 0.5) * Real.sin (pitch * 0.5))
        ⟨Real.cos (yaw * 0.5) * Real.sin (roll * 0.5) * Real.cos (pitch * 0.5) -
            Real.sin (yaw * 0.5) * Real.cos (roll * 0.5) * Real.sin (pitch * 0.5),
          Real.cos (yaw * 0.5) * Real.cos (roll * 0.5) * Real.sin (pitch * 0.5) +
            Real.sin (yaw * 0.5) * Real.sin (roll * 0.5) * Real.cos (pitch * 0.5),
          Real.sin (yaw * 0.5) * Real.cos (roll * 0.5) * Real.cos (pitch * 0.5) -
            Real.cos (yaw * 0.5) * Real.sin (roll * 0.5) * Real.sin (pitch * 0.5)⟩).DotProduct
        (Quaternion.ofWV
        (Real.cos (yaw * 0.5) * Real.cos (roll * 0.5) * Real.cos (pitch * 0.5) +
          Real.sin (yaw * 0.5) * Real.sin (roll * 0.5) * Real.sin (pitch * 0.5))
        ⟨Real.cos (yaw * 0.5) * Real.sin (roll * 0.5) * Real.cos (pitch * 0.5) -
            Real.sin (yaw * 0.5) * Real.cos (roll * 0.5) * Real.sin (pitch * 0.5),
          Real.cos (yaw * 0.5) * Real.cos (roll * 0.5) * Real.sin (pitch * 0.5) +
            Real.sin (yaw * 0.5) * Real.sin (roll * 0.5) * Real.cos (pitch * 0.5),
          Real.sin (yaw * 0.5) * Real.cos (roll * 0.5) * Real.cos (pitch * 0.5) -
            Real.cos (yaw * 0.5) * Real.sin (roll * 0.5) * Real.sin (pitch * 0.5)⟩) = 1 :=
    euler_dot_aux (Real.cos (yaw * 0.5)) (Real.sin (yaw * 0.5)) (Real.cos (roll * 0.5))
      (Real.sin (roll * 0.5)) (Real.cos (pitch * 0.5)) (Real.sin (pitch * 0.5))
      (Real.sin_sq_add_cos_sq (yaw * 0.5)) (Real.sin_sq_add_cos_sq (roll * 0.5))
      (Real.sin_sq_add_cos_sq (pitch * 0.5))
  show Quaternion.Normalize _ = _
  rw [normalize_of_norm_one ((norm_eq_one_iff _).mpr hdot) rfl]
  rfl

/-- The computed components of `ToEuler`. -/
lemma ToEuler_val (q : Quaternion) :
    q.ToEuler =
      (⟨atan2 (2 * (q.w * q.v.x + q.v.y * q.v.z))
          (1 - 2 * (q.v.x * q.v.x + q.v.y * q.v.y)),
        if 1 ≤ |2 * (q.w * q.v.y - q.v.z * q.v.x)| then
          Quaternion.copysign (PI_L / 2) (2 * (q.w * q.v.y - q.v.z * q.v.x))
        else Real.arcsin (2 * (q.w * q.v.y - q.v.z * q.v.x)),
        atan2 (2 * (q.w * q.v.z + q.v.x * q.v.y))
          (1 - 2 * (q.v.y * q.v.y + q.v.z * q.v.z))⟩ : VectorCartesian) := rfl

end IMT.Quaternion

open IMT in
/-- The `atan2` of a positively-scaled sine/cosine pair recovers the angle on
the principal branch. -/
lemma atan2_cos_sin (c θ : ℝ) (hc : 0 < c) (hθ : θ ∈ Set.Ioc (-Real.pi) Real.pi) :
    atan2 (c * Real.sin θ) (c * Real.cos θ) = θ := by
  unfold atan2
  rw [show (⟨c * Real.cos θ, c * Real.sin θ⟩ : ℂ) =
      (c : ℂ) * (Complex.cos θ + Complex.sin θ * Complex.I) by
    rw [← Complex.ofReal_cos, ← Complex.ofReal_sin, Complex.mk_eq_add_mul_I]
    push_cast
    ring]
  exact Complex.arg_mul_cos_add_sin_mul_I hc hθ

open IMT in
/-- Counterexample to C3 as stated: at the unit quaternions `q1 = (1,0,0,0)`
and `q2 = (-1,0,0,0)` the dot product is negative and `SLERP(q1, q2, 1)`
returns `-q2 = q1`, which is not `q2` (component-wise, far outside any
tolerance). -/
theorem C3_counterexample :
    (Quaternion.ofWXYZ 1 0 0 0).Norm = 1 ∧
    (Quaternion.ofWXYZ (-1) 0 0 0).Norm = 1 ∧
    (Quaternion.ofWXYZ 1 0 0 0).DotProduct (Quaternion.ofWXYZ (-1) 0 0 0) < 0 ∧
    ¬ (Quaternion.SLERP (Quaternion.ofWXYZ 1 0 0 0) (Quaternion.ofWXYZ (-1) 0 0 0) 1).eqv
        (Quaternion.ofWXYZ (-1) 0 0 0) := by
  have hn2 : (Quaternion.ofWXYZ (-1) 0 0 0).Norm = 1 := by
    show Real.sqrt ((-1 : ℝ) * (-1) + (0 * 0 + 0 * 0 + 0 * 0)) = 1
    rw [show ((-1 : ℝ) * (-1) + (0 * 0 + 0 * 0 + 0 * 0)) = 1 by norm_num, Real.sqrt_one]
  have hdlt : (Quaternion.ofWXYZ 1 0 0 0).DotProduct (Quaternion.ofWXYZ (-1) 0 0 0) < 0 := by
    show (1 : ℝ) * (-1) + (0 * 0 + 0 * 0 + 0 * 0) < 0
    norm_num
  refine ⟨Quaternion.norm_unit_example, hn2, hdlt, ?_⟩
  rw [Quaternion.slerp_one_neg _ _ Quaternion.norm_unit_example hn2 hdlt]
  intro hE
  have hw : -(-1 : ℝ) = -1 := hE.1
  norm_num at hw

open IMT in
/-- C3 (amended): for unit quaternions, `SLERP(q1, q2, 0)` equals `q1`
(component-wise); `SLERP(q1, q2, 1)` equals `q2` when `q1·q2 ≥ 0`, and equals
`-q2` — the antipodal representative of the same rotation — when `q1·q2 < 0`
and the implementation negates `q2` before interpolating. -/
theorem C3_slerp_endpoints (q1 q2 : Quaternion) (h1 : q1.Norm = 1)
    (h2 : q2.Norm = 1) :
    (Quaternion.SLERP q1 q2 0).eqv q1 ∧
    (¬ q1.DotProduct q2 < 0 → (Quaternion.SLERP q1 q2 1).eqv q2) ∧
    (q1.DotProduct q2 < 0 → (Quaternion.SLERP q1 q2 1).eqv (-q2)) := by
  refine ⟨?_, ?_, ?_⟩
  · rw [Quaternion.slerp_zero_val]
    exact ⟨rfl, rfl⟩
  · intro hd
    rw [Quaternion.slerp_one_pos q1 q2 h1 h2 hd]
    exact ⟨rfl, rfl⟩
  · intro hd
    rw [Quaternion.slerp_one_neg q1 q2 h1 h2 hd]
    exact ⟨rfl, rfl⟩

open IMT in
/-- Witness for C3 (amended) at `q1 = q2 = (1,0,0,0)`. -/
theorem C3_slerp_endpoints_witness :
    (Quaternion.ofWXYZ 1 0 0 0).Norm = 1 ∧
    (Quaternion.SLERP (Quaternion.ofWXYZ 1 0 0 0) (Quaternion.ofWXYZ 1 0 0 0) 0).eqv
      (Quaternion.ofWXYZ 1 0 0 0) ∧
    ¬ (Quaternion.ofWXYZ 1 0 0 0).DotProduct (Quaternion.ofWXYZ 1 0 0 0) < 0 ∧
    (Quaternion.SLERP (Quaternion.ofWXYZ 1 0 0 0) (Quaternion.ofWXYZ 1 0 0 0) 1).eqv
      (Quaternion.ofWXYZ 1 0 0 0) := by
  have hd : ¬ (Quaternion.ofWXYZ 1 0 0 0).DotProduct (Quaternion.ofWXYZ 1 0 0 0) < 0 := by
    show ¬ ((1 : ℝ) * 1 + (0 * 0 + 0 * 0 + 0 * 0) < 0)
    norm_num
  have hth := C3_slerp_endpoints _ _ Quaternion.norm_unit_example
    Quaternion.norm_unit_example
  exact ⟨Quaternion.norm_unit_example, hth.1, hd, hth.2.1 hd⟩

open IMT in
/-- C6: `FromEuler(yaw, pitch, roll)` followed by `ToEuler()` recovers the
triple `(roll, pitch, yaw)` exactly, for yaw and roll in `(-π, π]` and
`|pitch| < 89°`. -/
theorem C6_euler_roundtrip (yaw pitch roll : ℝ)
    (hy : yaw ∈ Set.Ioc (-Real.pi) Real.pi)
    (hr : roll ∈ Set.Ioc (-Real.pi) Real.pi)
    (hp : |pitch| < 89 * Real.pi / 180) :
    (Quaternion.FromEuler yaw pitch roll).ToEuler =
      (⟨roll, pitch, yaw⟩ : VectorCartesian) := by
  have hπ := Real.pi_pos
  have hp2 : |pitch| < Real.pi / 2 := by
    have : 89 * Real.pi / 180 < Real.pi / 2 := by linarith
    linarith
  have hpmem := abs_lt.mp hp2
  have hcp : 0 < Real.cos pitch :=
    Real.cos_pos_of_mem_Ioo ⟨hpmem.1, hpmem.2⟩
  have h01 := Real.sin_sq_add_cos_sq (yaw * 0.5)
  have h23 := Real.sin_sq_add_cos_sq (roll * 0.5)
  have h45 := Real.sin_sq_add_cos_sq (pitch * 0.5)
  rw [Quaternion.fromEuler_val, Quaternion.ToEuler_val]
  refine VectorCartesian.ext ?_ ?_ ?_
  · show atan2 _ _ = roll
    rw [Quaternion.euler_I1 (Real.cos (yaw * 0.5)) (Real.sin (yaw * 0.5))
        (Real.cos (roll * 0.5)) (Real.sin (roll * 0.5)) (Real.cos (pitch * 0.5))
        (Real.sin (pitch * 0.5)) h01,
      Quaternion.euler_I2 (Real.cos (yaw * 0.5)) (Real.sin (yaw * 0.5))
        (Real.cos (roll * 0.5)) (Real.sin (roll * 0.5)) (Real.cos (pitch * 0.5))
        (Real.sin (pitch * 0.5)) h01 h23 h45,
      ← Quaternion.cos_eq_half pitch, ← Quaternion.sin_eq_half roll,
      ← Quaternion.cos_eq_half roll]
    exact atan2_cos_sin (Real.cos pitch) roll hcp hr
  · show (if 1 ≤ |2 * (_ * _ - _ * _)| then _ else _) = pitch
    rw [Quaternion.euler_I3 (Real.cos (yaw * 0.5)) (Real.sin (yaw * 0.5))
        (Real.cos (roll * 0.5)) (Real.sin (roll * 0.5)) (Real.cos (pitch * 0.5))
        (Real.sin (pitch * 0.5)) h01 h23,
      ← Quaternion.sin_eq_half pitch]
    have hs2 : Real.sin pitch ^ 2 < 1 := by
      nlinarith [Real.sin_sq_add_cos_sq pitch, hcp]
    have habs : |Real.sin pitch| < 1 := by
      nlinarith [abs_nonneg (Real.sin pitch), sq_abs (Real.sin pitch)]
    rw [if_neg (not_le.mpr habs)]
    exact Real.arcsin_sin (le_of_lt hpmem.1) (le_of_lt hpmem.2)
  · show atan2 _ _ = yaw
    rw [Quaternion.euler_I4 (Real.cos (yaw * 0.5)) (Real.sin (yaw * 0.5))
        (Real.cos (roll * 0.5)) (Real.sin (roll * 0.5)) (Real.cos (pitch * 0.5))
        (Real.sin (pitch * 0.5)) h23,
      Quaternion.euler_I5 (Real.cos (yaw * 0.5)) (Real.sin (yaw * 0.5))
        (Real.cos (roll * 0.5)) (Real.sin (roll * 0.5)) (Real.cos (pitch * 0.5))
        (Real.sin (pitch * 0.5)) h01 h23 h45,
      ← Quaternion.cos_eq_half pitch, ← Quaternion.sin_eq_half yaw,
      ← Quaternion.cos_eq_half yaw]
    exact atan2_cos_sin (Real.cos pitch) yaw hcp hy

open IMT in
/-- Witness for C6 at `(yaw, pitch, roll) = (0, 0, 0)`. -/
theorem C6_euler_roundtrip_witness :
    (0 : ℝ) ∈ Set.Ioc (-Real.pi) Real.pi ∧ |(0 : ℝ)| < 89 * Real.pi / 180 ∧
    (Quaternion.FromEuler 0 0 0).ToEuler = (⟨0, 0, 0⟩ : VectorCartesian) := by
  have hπ := Real.pi_pos
  have hy : (0 : ℝ) ∈ Set.Ioc (-Real.pi) Real.pi := ⟨by linarith, by linarith⟩
  have hp : |(0 : ℝ)| < 89 * Real.pi / 180 := by
    rw [abs_zero]
    positivity
  exact ⟨hy, hp, C6_euler_roundtrip 0 0 0 hy hy hp⟩

/-- C's `fmod(x, 1)` is the fractional part for non-negative `x`. -/
lemma cfmod_one_of_nonneg (x : ℝ) (hx : 0 ≤ x) : cfmod x 1 = Int.fract x := by
  unfold cfmod ctrunc
  rw [div_one, if_pos hx, Int.fract]
  ring

/-- Both equirectangular coordinates produced by
`fromViewportCoordToEquirectCoord` are at most 1, for every head rotation and
every sample point. -/
lemma equirect_coord_le_one (q : Quaternion) (c : NormalizedCoordinate) :
    (fromViewportCoordToEquirectCoord q c).x ≤ 1 ∧
    (fromViewportCoordToEquirectCoord q c).y ≤ 1 := by
  have hπ := Real.pi_pos
  constructor
  · show 1 - cfmod (0.75 + (q.Rotation (preRotationRay c)).GetTheta / (2 * PI)) 1 ≤ 1
    have hθl : -Real.pi < (q.Rotation (preRotationRay c)).GetTheta :=
      Complex.neg_pi_lt_arg _
    have hpos : (0 : ℝ) <
        0.75 + (q.Rotation (preRotationRay c)).GetTheta / (2 * PI) := by
      set θ := (q.Rotation (preRotationRay c)).GetTheta with hθ
      have h2π : (0 : ℝ) < 2 * PI := by unfold PI; linarith
      have hq : -Real.pi / (2 * PI) ≤ θ / (2 * PI) :=
        (div_le_div_iff_of_pos_right h2π).mpr (le_of_lt hθl)
      have hv : -Real.pi / (2 * PI) = -(1 / 2) := by
        unfold PI
        rw [div_eq_iff (ne_of_gt (by positivity))]
        ring
      rw [hv] at hq
      linarith
    rw [cfmod_one_of_nonneg _ (le_of_lt hpos)]
    have := Int.fract_nonneg (0.75 + (q.Rotation (preRotationRay c)).GetTheta / (2 * PI))
    linarith
  · show (q.Rotation (preRotationRay c)).GetPhi / PI ≤ 1
    unfold PI
    rw [div_le_one hπ]
    exact Real.arccos_le_pi _

/-- A sorted-map `lower_bound` search succeeds whenever some recorded key is
at least the query, and returns an entry of the map. -/
lemma lowerBound_some {α : Type} (l : List (ℝ × α)) (x : ℝ) (e : ℝ × α)
    (he : e ∈ l) (hx : x ≤ e.1) :
    ∃ r, lowerBound l x = some r ∧ r ∈ l := by
  induction l with
  | nil => cases he
  | cons a as ih =>
    by_cases hax : x ≤ a.1
    · refine ⟨a, ?_, List.mem_cons_self a as⟩
      unfold lowerBound
      rw [List.find?_cons_of_pos]
      exact decide_eq_true hax
    · have hm : e ∈ as := by
        cases List.mem_cons.mp he with
        | inl h1 => exact absurd (h1 ▸ hx) hax
        | inr h2 => exact h2
      obtain ⟨r, hr, hrm⟩ := ih hm
      refine ⟨r, ?_, List.mem_cons_of_mem a hrm⟩
      unfold lowerBound at hr ⊢
      rw [List.find?_cons_of_neg, hr]
      simp [hax]

/-- The chained tile lookup succeeds on every coordinate that is at most 1 in
each axis, provided the recorded boundaries reach 1 in both axes. -/
lemma mapCoordToTile_some (m : TileMapping) (hm1 : ∃ e ∈ m, 1 ≤ e.1)
    (hm2 : ∀ e ∈ m, ∃ f ∈ e.2, 1 ≤ f.1)
    (c : NormalizedCoordinate) (hcx : c.x ≤ 1) (hcy : c.y ≤ 1) :
    ∃ t, mapCoordToTile m c = some t := by
  obtain ⟨e, hem, he1⟩ := hm1
  obtain ⟨r, hr, hrm⟩ := lowerBound_some m c.x e hem (le_trans hcx he1)
  obtain ⟨f, hfm, hf1⟩ := hm2 r hrm
  obtain ⟨g, hg, _⟩ := lowerBound_some r.2 c.y f hfm (le_trans hcy hf1)
  refine ⟨g.2, ?_⟩
  unfold mapCoordToTile
  rw [hr]
  show Option.map (fun f => f.2) (lowerBound r.2 c.y) = some g.2
  rw [hg]
  rfl

/-- A successful pass over the sample points assigns one tile per point. -/
lemma assignTiles_length (m : TileMapping) (q : Quaternion) :
    ∀ (l : List NormalizedCoordinate) (ts : List ℤ),
      assignTiles m q l = some ts → ts.length = l.length := by
  intro l
  induction l with
  | nil =>
    intro ts h
    injection h with h2
    subst h2
    rfl
  | cons p ps ih =>
    intro ts h
    simp only [assignTiles, Option.bind_eq_some, Option.map_eq_some'] at h
    obtain ⟨t, _, us, hus, hts⟩ := h
    rw [← hts]
    simp [ih us hus]

/-- Under the boundary hypotheses the whole pass succeeds, assigning exactly
one tile per sample point. -/
lemma assignTiles_total (m : TileMapping) (q : Quaternion)
    (hm1 : ∃ e ∈ m, 1 ≤ e.1) (hm2 : ∀ e ∈ m, ∃ f ∈ e.2, 1 ≤ f.1) :
    ∀ l : List NormalizedCoordinate, ∃ ts : List ℤ,
      assignTiles m q l = some ts ∧ ts.length = l.length := by
  intro l
  induction l with
  | nil => exact ⟨[], rfl, rfl⟩
  | cons p ps ih =>
    obtain ⟨ts, hts, hlen⟩ := ih
    obtain ⟨t, ht⟩ := mapCoordToTile_some m hm1 hm2
      (fromViewportCoordToEquirectCoord q p)
      (equirect_coord_le_one q p).1 (equirect_coord_le_one q p).2
    exact ⟨t :: ts, by simp [assignTiles, ht, hts], by simp [hlen]⟩

lemma samplePoints_length : samplePoints.length = 81 := rfl

/-- C2: for every resolver whose recorded boundaries reach at least 1 in both
axes (non-empty layout) and every head rotation, `computeTileVisibility`
returns a histogram whose counts sum to exactly 81 = (SAMPLERES+1)². -/
theorem C2_visibility_sum (m : TileMapping) (q : Quaternion)
    (hm1 : ∃ e ∈ m, 1 ≤ e.1) (hm2 : ∀ e ∈ m, ∃ f ∈ e.2, 1 ≤ f.1) :
    ∃ h : Multiset ℤ, computeTileVisibility m q = some h ∧
      h.toFinset.sum (fun t => h.count t) = 81 := by
  obtain ⟨ts, hts, hlen⟩ := assignTiles_total m q hm1 hm2 samplePoints
  refine ⟨(ts : Multiset ℤ), ?_, ?_⟩
  · unfold computeTileVisibility
    rw [hts]
    rfl
  · rw [Multiset.toFinset_sum_count_eq, Multiset.coe_card, hlen, samplePoints_length]

/-- Witness for C2: the single-tile layout with boundary `(1, 1)` and the
head rotation `(1,0,0,0)`. -/
theorem C2_visibility_sum_witness :
    (∃ e ∈ ([((1 : ℝ), [((1 : ℝ), (0 : ℤ))])] : TileMapping), 1 ≤ e.1) ∧
    (∀ e ∈ ([((1 : ℝ), [((1 : ℝ), (0 : ℤ))])] : TileMapping), ∃ f ∈ e.2, 1 ≤ f.1) ∧
    ∃ h : Multiset ℤ,
      computeTileVisibility ([((1 : ℝ), [((1 : ℝ), (0 : ℤ))])] : TileMapping)
        (Quaternion.ofWXYZ 1 0 0 0) = some h ∧
      h.toFinset.sum (fun t => h.count t) = 81 := by
  have hm1 : ∃ e ∈ ([((1 : ℝ), [((1 : ℝ), (0 : ℤ))])] : TileMapping), 1 ≤ e.1 :=
    ⟨((1 : ℝ), [((1 : ℝ), (0 : ℤ))]), by simp, le_refl 1⟩
  have hm2 : ∀ e ∈ ([((1 : ℝ), [((1 : ℝ), (0 : ℤ))])] : TileMapping),
      ∃ f ∈ e.2, 1 ≤ f.1 := by
    intro e he
    rw [List.mem_singleton] at he
    exact ⟨((1 : ℝ), (0 : ℤ)), by rw [he]; simp, le_refl 1⟩
  exact ⟨hm1, hm2, C2_visibility_sum _ _ hm1 hm2⟩

/-- C10: in every histogram `computeTileVisibility` returns, every present
tile index has count at least 1 and there are at most 81 distinct tile
indices. -/
theorem C10_histogram_keys (m : TileMapping) (q : Quaternion) (h : Multiset ℤ)
    (hc : computeTileVisibility m q = some h) :
    (∀ t ∈ h.toFinset, 1 ≤ h.count t) ∧ h.toFinset.card ≤ 81 := by
  have hcard : Multiset.card h = 81 := by
    unfold computeTileVisibility at hc
    cases ha : assignTiles m q samplePoints with
    | none => rw [ha] at hc; cases hc
    | some ts =>
      rw [ha] at hc
      injection hc with hc2
      rw [← hc2, Multiset.coe_card, assignTiles_length m q samplePoints ts ha,
        samplePoints_length]
  constructor
  · intro t htm
    exact Multiset.count_pos.mpr (Multiset.mem_toFinset.mp htm)
  · rw [← hcard]
    exact Multiset.toFinset_card_le h

/-- Witness for C10 at the single-tile layout and head rotation `(1,0,0,0)`:
the returned histogram exists and satisfies both bounds. -/
theorem C10_histogram_keys_witness :
    ∃ h : Multiset ℤ,
      computeTileVisibility ([((1 : ℝ), [((1 : ℝ), (0 : ℤ))])] : TileMapping)
        (Quaternion.ofWXYZ 1 0 0 0) = some h ∧
      (∀ t ∈ h.toFinset, 1 ≤ h.count t) ∧ h.toFinset.card ≤ 81 := by
  have hm1 : ∃ e ∈ ([((1 : ℝ), [((1 : ℝ), (0 : ℤ))])] : TileMapping), 1 ≤ e.1 :=
    ⟨((1 : ℝ), [((1 : ℝ), (0 : ℤ))]), by simp, le_refl 1⟩
  have hm2 : ∀ e ∈ ([((1 : ℝ), [((1 : ℝ), (0 : ℤ))])] : TileMapping),
      ∃ f ∈ e.2, 1 ≤ f.1 := by
    intro e he
    rw [List.mem_singleton] at he
    exact ⟨((1 : ℝ), (0 : ℤ)), by rw [he]; simp, le_refl 1⟩
  obtain ⟨ts, hts, _⟩ := assignTiles_total _ (Quaternion.ofWXYZ 1 0 0 0) hm1 hm2 samplePoints
  have hc : computeTileVisibility ([((1 : ℝ), [((1 : ℝ), (0 : ℤ))])] : TileMapping)
      (Quaternion.ofWXYZ 1 0 0 0) = some (ts : Multiset ℤ) := by
    unfold computeTileVisibility
    rw [hts]
    rfl
  exact ⟨(ts : Multiset ℤ), hc, C10_histogram_keys _ _ _ hc⟩

end

